import Mathlib

/-!
Verification of the satservice repository (satellite image counting service).

Shallow embedding of the core pipeline described in the spec:
  * cell count dispatcher (`imagesByRegion`, geometry.go),
  * region coverer front-end (`regionCover`, geometry.go),
  * fan-out worker pool (`pool` / `worker`),
  * bounded retry with randomized backoff (`retry`).

Concurrency is modelled by making the nondeterministic parts explicit:
the order in which messages arrive on a channel is an input list, the
assignment of channel jobs to workers is an input schedule, and the
random jitter source is an input stream of naturals.
-/

namespace SatService

/-! ## Cell count dispatcher (geometry.go: `bucketGranuleSize`, `imagesByRegion`)

`imagesByRegion` spawns one `getImageCount` goroutine per cell of the cover
and then runs `len(cover)` iterations of a `select` over the results channel
(an `int` count per cell) and the error channel.  The sequence of messages it
receives is modelled as a list of `CellMsg` in arrival order.  The first
error received causes an immediate `return 0, err`; otherwise the counts are
summed and the total is scaled by the constant `bucketGranuleSize = 13`. -/

def bucketGranuleSize : Int := 13

inductive CellMsg where
  | count : Int → CellMsg
  | fail : String → CellMsg
deriving DecidableEq, Repr

/-- The aggregation loop of `imagesByRegion` (geometry.go lines 126-136),
folded over the arrival-ordered list of channel messages.  Go's
`return 0, err` / `return imageCount * bucketGranuleSize, nil` is the pair
`(Int, Option String)` with `none` standing for a `nil` error. -/
def imagesByRegionLoop : List CellMsg → Int → Int × Option String
  | [], acc => (acc * bucketGranuleSize, none)
  | CellMsg.count n :: rest, acc => imagesByRegionLoop rest (acc + n)
  | CellMsg.fail e :: _, _ => (0, some e)

def imagesByRegion (arrivals : List CellMsg) : Int × Option String :=
  imagesByRegionLoop arrivals 0

theorem imagesByRegionLoop_all_counts (cs : List Int) (acc : Int) :
    imagesByRegionLoop (cs.map CellMsg.count) acc = ((acc + cs.sum) * bucketGranuleSize, none) := by
  induction cs generalizing acc with
  | nil => simp [imagesByRegionLoop]
  | cons c cs ih =>
    simp only [List.map_cons, imagesByRegionLoop, ih, List.sum_cons]
    ring_nf

theorem imagesByRegionLoop_first_fail (e : String) (l : List CellMsg) :
    ∀ acc : Int, CellMsg.fail e ∈ l → (∀ e', CellMsg.fail e' ∈ l → e' = e) →
    imagesByRegionLoop l acc = (0, some e) := by
  induction l with
  | nil =>
    intro acc h _
    simp at h
  | cons m rest ih =>
    intro acc hmem huniq
    cases m with
    | count n =>
      have hmem' : CellMsg.fail e ∈ rest := by
        rcases List.mem_cons.mp hmem with h | h
        · simp at h
        · exact h
      simpa [imagesByRegionLoop] using
        ih (acc + n) hmem' (fun e' he' => huniq e' (List.mem_cons_of_mem _ he'))
    | fail e' =>
      have he : e' = e := huniq e' (List.mem_cons_self _ _)
      subst he
      simp [imagesByRegionLoop]

/-- Extract the integer of a successful count message. -/
def cellMsgCount : CellMsg → Option Int
  | CellMsg.count n => some n
  | CellMsg.fail _ => none

theorem map_count_filterMap (l : List CellMsg) (hall : ∀ m ∈ l, ∃ n, m = CellMsg.count n) :
    (l.filterMap cellMsgCount).map CellMsg.count = l := by
  induction l with
  | nil => simp
  | cons m rest ih =>
    obtain ⟨n, hn⟩ := hall m (List.mem_cons_self _ _)
    subst hn
    simp only [List.filterMap_cons, cellMsgCount, List.map_cons]
    exact congrArg _ (ih (fun m hm => hall m (List.mem_cons_of_mem _ hm)))

theorem filterMap_map_count (cs : List Int) :
    (cs.map CellMsg.count).filterMap cellMsgCount = cs := by
  induction cs with
  | nil => simp
  | cons c cs ih => simp [cellMsgCount, ih]

/-- C1: if every per-cell query completes without error and each returns a
non-negative integer, `imagesByRegion` returns the exact sum of the per-cell
counts scaled by `bucketGranuleSize` with a `nil` error, for every arrival
order of the results (the arrival list is any permutation of the per-cell
counts). -/
theorem imagesByRegion_all_ok (counts : List Int) (arrivals : List CellMsg)
    (hperm : arrivals.Perm (counts.map CellMsg.count))
    (hnneg : ∀ n ∈ counts, 0 ≤ n) :
    imagesByRegion arrivals = (counts.sum * bucketGranuleSize, none) := by
  have hall : ∀ m ∈ arrivals, ∃ n, m = CellMsg.count n := by
    intro m hm
    have : m ∈ counts.map CellMsg.count := hperm.mem_iff.mp hm
    obtain ⟨n, _, hn⟩ := List.mem_map.mp this
    exact ⟨n, hn.symm⟩
  have hrepr := map_count_filterMap arrivals hall
  have hpermInts : (arrivals.filterMap cellMsgCount).Perm counts := by
    have h := hperm.filterMap cellMsgCount
    rwa [filterMap_map_count] at h
  have hsum : (arrivals.filterMap cellMsgCount).sum = counts.sum := hpermInts.sum_eq
  calc imagesByRegion arrivals
      = imagesByRegionLoop ((arrivals.filterMap cellMsgCount).map CellMsg.count) 0 := by
        rw [hrepr]; rfl
    _ = ((0 + (arrivals.filterMap cellMsgCount).sum) * bucketGranuleSize, none) :=
        imagesByRegionLoop_all_counts _ 0
    _ = (counts.sum * bucketGranuleSize, none) := by rw [hsum]; ring_nf

/-- Witness for C1 at the spec's end-to-end example counts 3, 5, 2 arriving
out of order: the result is (3+5+2) * 13 = 130 with no error. -/
theorem imagesByRegion_all_ok_witness :
    imagesByRegion [CellMsg.count 5, CellMsg.count 2, CellMsg.count 3] = (130, none) := by
  have h := imagesByRegion_all_ok [3, 5, 2]
    [CellMsg.count 5, CellMsg.count 2, CellMsg.count 3] (by decide) (by decide)
  simpa [bucketGranuleSize] using h

/-- C2: if exactly one of the per-cell queries reports an error `e` and the
other per-cell queries report integer counts, `imagesByRegion` returns the
error `e` together with the count 0, for every arrival order: no partial sum
is ever returned and the successful counts are discarded. -/
theorem imagesByRegion_one_fail (counts : List Int) (e : String) (arrivals : List CellMsg)
    (hperm : arrivals.Perm (CellMsg.fail e :: counts.map CellMsg.count)) :
    imagesByRegion arrivals = (0, some e) := by
  have hmem : CellMsg.fail e ∈ arrivals :=
    hperm.mem_iff.mpr (List.mem_cons_self _ _)
  have huniq : ∀ e', CellMsg.fail e' ∈ arrivals → e' = e := by
    intro e' he'
    have : CellMsg.fail e' ∈ CellMsg.fail e :: counts.map CellMsg.count :=
      hperm.mem_iff.mp he'
    rcases List.mem_cons.mp this with h | h
    · exact (CellMsg.fail.injEq _ _).mp h
    · obtain ⟨n, _, hn⟩ := List.mem_map.mp h
      simp at hn
  exact imagesByRegionLoop_first_fail e arrivals 0 hmem huniq

/-- Witness for C2: two successful counts and one error arriving in the
middle; the dispatcher returns the error and a zero count. -/
theorem imagesByRegion_one_fail_witness :
    imagesByRegion [CellMsg.count 3, CellMsg.fail "boom", CellMsg.count 5] = (0, some "boom") :=
  imagesByRegion_one_fail [3, 5] "boom"
    [CellMsg.count 3, CellMsg.fail "boom", CellMsg.count 5] (by decide)

/-! ## Retry executor (`retry(attempts, sleep, callback)`)

The Go loop runs `i = 0, 1, ...`: it invokes the callback, returns `nil` on
success, breaks out with a wrapped error once `i >= attempts - 1`, and
otherwise draws `jitter := rand.Int63n(int64(sleep))`, updates
`sleep = sleep + jitter/2` and sleeps for the updated `sleep`.

The callback is modelled as a stream `op : Nat → Option String` giving the
outcome of each invocation (`none` = success), the random source as a stream
`jr : Nat → Nat` of raw jitter draws, and a run is summarised by a
`RetryTrace`: the returned error, the number of invocations performed, and
the list of sleep durations in the order they were slept.  The loop counter
comparison `i >= attempts - 1` (on Go ints, so `attempts` may be zero or
negative) is carried as the remaining-attempt budget
`remaining = (attempts - 1 - i).toNat`, which is `0` exactly when the Go
condition holds. -/

structure RetryTrace where
  err : Option String
  calls : Nat
  sleeps : List Nat
deriving DecidableEq, Repr

/-- The wrapped error built by `fmt.Errorf("after %d attempts, last error: %s", ...)`. -/
def retryErrMsg (attempts : Int) (lastErr : String) : String :=
  "after " ++ toString attempts ++ " attempts, last error: " ++ lastErr

def retryLoop (attempts : Int) (jr : Nat → Nat) (op : Nat → Option String) :
    Nat → Nat → Nat → RetryTrace
  | 0, i, _ =>
    match op i with
    | none => { err := none, calls := i + 1, sleeps := [] }
    | some e => { err := some (retryErrMsg attempts e), calls := i + 1, sleeps := [] }
  | r + 1, i, sleep =>
    match op i with
    | none => { err := none, calls := i + 1, sleeps := [] }
    | some _ =>
      let s := sleep + jr i / 2
      let t := retryLoop attempts jr op r (i + 1) s
      { err := t.err, calls := t.calls, sleeps := s :: t.sleeps }

def retry (attempts : Int) (sleep : Nat) (jr : Nat → Nat) (op : Nat → Option String) :
    RetryTrace :=
  retryLoop attempts jr op (attempts - 1).toNat 0 sleep

/-- If the first `m` invocations starting at index `i` fail and invocation
`i + m` succeeds, with at least `m` retries still in budget, the loop stops
successfully right after invocation `i + m`. -/
theorem retryLoop_succeeds (attempts : Int) (jr : Nat → Nat) (op : Nat → Option String) :
    ∀ (m remaining i sleep : Nat), m ≤ remaining →
      (∀ j, j < m → op (i + j) ≠ none) → op (i + m) = none →
      (retryLoop attempts jr op remaining i sleep).err = none ∧
      (retryLoop attempts jr op remaining i sleep).calls = i + m + 1 := by
  intro m
  induction m with
  | zero =>
    intro remaining i sleep _ _ hsucc
    simp only [Nat.add_zero] at hsucc
    cases remaining <;> simp [retryLoop, hsucc]
  | succ m ih =>
    intro remaining i sleep hle hfail hsucc
    have h0 : op i ≠ none := by
      have := hfail 0 (Nat.succ_pos m)
      simpa using this
    obtain ⟨e, he⟩ : ∃ e, op i = some e := by
      cases hop : op i with
      | none => exact absurd hop h0
      | some e => exact ⟨e, rfl⟩
    obtain ⟨r, hr⟩ : ∃ r, remaining = r + 1 := by
      cases remaining with
      | zero => omega
      | succ r => exact ⟨r, rfl⟩
    subst hr
    have hrec := ih r (i + 1) (sleep + jr i / 2) (by omega)
      (fun j hj => by
        have := hfail (j + 1) (by omega)
        simpa [Nat.add_assoc, Nat.add_comm 1 j] using this)
      (by
        have : i + 1 + m = i + (m + 1) := by omega
        rw [this]
        exact hsucc)
    simp only [retryLoop, he]
    exact ⟨hrec.1, by rw [hrec.2]; omega⟩

/-- If every invocation fails, the loop exhausts its remaining budget, makes
`remaining + 1` further invocations, and returns the wrapped error built from
the last failure. -/
theorem retryLoop_all_fail (attempts : Int) (jr : Nat → Nat) (op : Nat → Option String)
    (hfail : ∀ j, op j ≠ none) :
    ∀ (remaining i sleep : Nat), ∃ e, op (i + remaining) = some e ∧
      (retryLoop attempts jr op remaining i sleep).err = some (retryErrMsg attempts e) ∧
      (retryLoop attempts jr op remaining i sleep).calls = i + remaining + 1 := by
  intro remaining
  induction remaining with
  | zero =>
    intro i sleep
    obtain ⟨e, he⟩ : ∃ e, op i = some e := by
      cases hop : op i with
      | none => exact absurd hop (hfail i)
      | some e => exact ⟨e, rfl⟩
    exact ⟨e, by simpa using he, by simp [retryLoop, he], by simp [retryLoop, he]⟩
  | succ r ih =>
    intro i sleep
    obtain ⟨e, he⟩ : ∃ e, op i = some e := by
      cases hop : op i with
      | none => exact absurd hop (hfail i)
      | some e => exact ⟨e, rfl⟩
    obtain ⟨e', he', herr, hcalls⟩ := ih (i + 1) (sleep + jr i / 2)
    refine ⟨e', by rw [show i + (r + 1) = i + 1 + r by omega]; exact he', ?_, ?_⟩
    · simp only [retryLoop, he]
      exact herr
    · simp only [retryLoop, he]
      rw [hcalls]
      omega

/-- C4: if the operation fails on its first `k` invocations with
`k < maxAttempts` and succeeds on invocation `k + 1`, `retry` returns `nil`
after exactly `k + 1` invocations; and if the operation fails on every
invocation (with `maxAttempts >= 1`), `retry` invokes it exactly
`maxAttempts` times and returns the error whose message is built from the
attempt count and the last underlying error. -/
theorem retry_attempt_counts (attempts : Int) (b : Nat) (jr : Nat → Nat)
    (op : Nat → Option String) (k : Nat) :
    (((k : Int) < attempts → (∀ j, j < k → op j ≠ none) → op k = none →
      (retry attempts b jr op).err = none ∧ (retry attempts b jr op).calls = k + 1)) ∧
    (1 ≤ attempts → (∀ j, op j ≠ none) →
      (retry attempts b jr op).calls = attempts.toNat ∧
      ∃ e, op (attempts.toNat - 1) = some e ∧
        (retry attempts b jr op).err = some (retryErrMsg attempts e)) := by
  constructor
  · intro hk hfail hsucc
    have hle : k ≤ (attempts - 1).toNat := by omega
    have h := retryLoop_succeeds attempts jr op k (attempts - 1).toNat 0 b hle
      (by simpa using hfail) (by simpa using hsucc)
    refine ⟨h.1, ?_⟩
    simp only [retry]
    rw [h.2]
    omega
  · intro hatt hfail
    obtain ⟨e, he, herr, hcalls⟩ :=
      retryLoop_all_fail attempts jr op hfail (attempts - 1).toNat 0 b
    have hidx : (0 : Nat) + (attempts - 1).toNat = attempts.toNat - 1 := by omega
    refine ⟨?_, e, by rwa [hidx] at he, ?_⟩
    · simp only [retry]
      rw [hcalls]
      omega
    · simp only [retry]
      exact herr

/-- Witness for C4: an operation failing once then succeeding with budget 3
stops after 2 calls; an operation that always fails with budget 2 makes 2
calls and returns the wrapped message naming 2 attempts. -/
theorem retry_attempt_counts_witness :
    ((retry 3 10 (fun _ => 0) (fun j => if j = 0 then some "e0" else none)).err = none ∧
      (retry 3 10 (fun _ => 0) (fun j => if j = 0 then some "e0" else none)).calls = 2) ∧
    ((retry 2 10 (fun _ => 0) (fun _ => some "boom")).calls = 2 ∧
      (retry 2 10 (fun _ => 0) (fun _ => some "boom")).err =
        some (retryErrMsg 2 "boom")) := by
  constructor
  · exact (retry_attempt_counts 3 10 (fun _ => 0)
      (fun j => if j = 0 then some "e0" else none) 1).1 (by decide)
      (by decide) (by decide)
  · have h := (retry_attempt_counts 2 10 (fun _ => 0) (fun _ => some "boom") 0).2
      (by decide) (fun j => by simp)
    obtain ⟨hcalls, e, he, herr⟩ := h
    have he' : e = "boom" := by simpa using he.symm
    subst he'
    exact ⟨by simpa using hcalls, herr⟩

theorem retryLoop_calls_ge (attempts : Int) (jr : Nat → Nat) (op : Nat → Option String) :
    ∀ (remaining i sleep : Nat), i + 1 ≤ (retryLoop attempts jr op remaining i sleep).calls := by
  intro remaining
  induction remaining with
  | zero =>
    intro i sleep
    cases hop : op i <;> simp [retryLoop, hop]
  | succ r ih =>
    intro i sleep
    cases hop : op i with
    | none => simp [retryLoop, hop]
    | some e =>
      simp only [retryLoop, hop]
      have := ih (i + 1) (sleep + jr i / 2)
      omega

/-- C10: for every `maxAttempts` value, including zero and negative Go ints,
`retry` invokes the operation at least once; and whenever `maxAttempts <= 1`
the operation is invoked exactly once, no backoff sleep is performed, and a
failure of that single invocation is immediately returned wrapped. -/
theorem retry_min_one_call (attempts : Int) (b : Nat) (jr : Nat → Nat)
    (op : Nat → Option String) :
    1 ≤ (retry attempts b jr op).calls ∧
    (attempts ≤ 1 →
      (retry attempts b jr op).calls = 1 ∧
      (retry attempts b jr op).sleeps = [] ∧
      (retry attempts b jr op).err = (op 0).map (retryErrMsg attempts)) := by
  constructor
  · simpa [retry] using retryLoop_calls_ge attempts jr op (attempts - 1).toNat 0 b
  · intro hatt
    have hz : (attempts - 1).toNat = 0 := by omega
    simp only [retry, hz]
    cases hop : op 0 <;> simp [retryLoop, hop]

/-- Witness for C10 at `maxAttempts = 0` (a nonpositive Go int) with an
always-failing operation: one call, no sleeps, wrapped error. -/
theorem retry_min_one_call_witness :
    1 ≤ (retry 0 7 (fun _ => 0) (fun _ => some "x")).calls ∧
    (retry 0 7 (fun _ => 0) (fun _ => some "x")).calls = 1 ∧
    (retry 0 7 (fun _ => 0) (fun _ => some "x")).sleeps = [] ∧
    (retry 0 7 (fun _ => 0) (fun _ => some "x")).err = some (retryErrMsg 0 "x") := by
  have h := retry_min_one_call 0 7 (fun _ => 0) (fun _ => some "x")
  have h2 := h.2 (by decide)
  exact ⟨h.1, h2.1, h2.2.1, h2.2.2⟩

/-! ### Backoff sequence (the `sleep`/`jitter` state of `retry`)

`backoffSeq jr b n` is the value of the Go variable `sleep` at the start of
round `n` (with `b` the caller-supplied base delay): round `n` draws the raw
jitter `jr n` (Go: `rand.Int63n(int64(sleep))`, so `jr n < sleep`), adds its
half to `sleep`, and sleeps for the updated value — so the duration slept
before attempt `n + 2` is `backoffSeq jr b (n + 1)`. -/

def backoffSeq (jr : Nat → Nat) (b : Nat) : Nat → Nat
  | 0 => b
  | n + 1 => backoffSeq jr b n + jr n / 2

theorem backoffSeq_le_succ (jr : Nat → Nat) (b n : Nat) :
    backoffSeq jr b n ≤ backoffSeq jr b (n + 1) := by
  simp only [backoffSeq]
  omega

theorem backoffSeq_mono (jr : Nat → Nat) (b : Nat) :
    ∀ {n m : Nat}, n ≤ m → backoffSeq jr b n ≤ backoffSeq jr b m := by
  intro n m h
  induction h with
  | refl => exact Nat.le_refl _
  | step h ih => exact Nat.le_trans ih (backoffSeq_le_succ _ _ _)

/-- The sleeps recorded by `retryLoop`, started at round `i` with the round-`i`
backoff state, are an initial run of the backoff sequence from round `i + 1` on. -/
theorem retryLoop_sleeps_eq (attempts : Int) (jr : Nat → Nat) (op : Nat → Option String)
    (b : Nat) :
    ∀ (remaining i : Nat), ∃ m,
      (retryLoop attempts jr op remaining i (backoffSeq jr b i)).sleeps =
        (List.range m).map (fun n => backoffSeq jr b (i + 1 + n)) := by
  intro remaining
  induction remaining with
  | zero =>
    intro i
    cases hop : op i <;> exact ⟨0, by simp [retryLoop, hop]⟩
  | succ r ih =>
    intro i
    cases hop : op i with
    | none => exact ⟨0, by simp [retryLoop, hop]⟩
    | some e =>
      obtain ⟨m, hm⟩ := ih (i + 1)
      refine ⟨m + 1, ?_⟩
      simp only [retryLoop, hop]
      have hstep : backoffSeq jr b i + jr i / 2 = backoffSeq jr b (i + 1) := rfl
      rw [hstep, hm, List.range_succ_eq_map, List.map_cons, List.map_map]
      refine congrArg₂ List.cons (by simp) ?_
      apply List.map_congr_left
      intro n _
      simp only [Function.comp_apply]
      congr 1
      omega

/-- C5: with the random source modelled as a stream of raw draws
`jr n < backoffSeq jr b n` (the contract of `rand.Int63n` on the current
`sleep`), every execution of `retry` sleeps exactly the durations
`backoffSeq jr b (n+1)` in order; each such duration is the current base
delay plus the effective jitter `jr n / 2`, that jitter lies in
`[0, baseDelay/2)`, the next round's base delay grows by exactly the jitter,
and the sequence of sleep durations is monotonically non-decreasing. -/
theorem retry_backoff_monotone (attempts : Int) (b : Nat) (jr : Nat → Nat)
    (op : Nat → Option String) (hb : 0 < b)
    (hjr : ∀ n, jr n < backoffSeq jr b n) :
    (∃ m, (retry attempts b jr op).sleeps =
      (List.range m).map (fun n => backoffSeq jr b (n + 1))) ∧
    (∀ n, backoffSeq jr b (n + 1) = backoffSeq jr b n + jr n / 2) ∧
    (∀ n, 2 * (jr n / 2) < backoffSeq jr b n) ∧
    (∀ n m, n ≤ m → backoffSeq jr b (n + 1) ≤ backoffSeq jr b (m + 1)) := by
  refine ⟨?_, fun n => rfl, fun n => ?_, fun n m h => backoffSeq_mono jr b (by omega)⟩
  · obtain ⟨m, hm⟩ := retryLoop_sleeps_eq attempts jr op b (attempts - 1).toNat 0
    refine ⟨m, ?_⟩
    have hretry : (retry attempts b jr op).sleeps =
        (retryLoop attempts jr op (attempts - 1).toNat 0 (backoffSeq jr b 0)).sleeps := rfl
    rw [hretry, hm]
    apply List.map_congr_left
    intro n _
    congr 1
    omega
  · have h1 : 2 * (jr n / 2) ≤ jr n := by omega
    exact Nat.lt_of_le_of_lt h1 (hjr n)

theorem backoffSeq_const_one : ∀ n, backoffSeq (fun _ => 0) 1 n = 1 := by
  intro n
  induction n with
  | zero => rfl
  | succ n ih => simp [backoffSeq, ih]

/-- Witness for C5 with base delay 1, zero jitter draws and an always-failing
operation under 3 attempts. -/
theorem retry_backoff_monotone_witness :
    (∃ m, (retry 3 1 (fun _ => 0) (fun _ => some "x")).sleeps =
      (List.range m).map (fun n => backoffSeq (fun _ => 0) 1 (n + 1))) ∧
    (∀ n, backoffSeq (fun _ => 0) 1 (n + 1) = backoffSeq (fun _ => 0) 1 n + 0 / 2) ∧
    (∀ n, 2 * (0 / 2) < backoffSeq (fun _ => 0) 1 n) ∧
    (∀ n m, n ≤ m →
      backoffSeq (fun _ => 0) 1 (n + 1) ≤ backoffSeq (fun _ => 0) 1 (m + 1)) :=
  retry_backoff_monotone 3 1 (fun _ => 0) (fun _ => some "x") (by decide)
    (fun n => by rw [backoffSeq_const_one n]; exact Nat.zero_lt_one)

/-! ## Region coverer front-end (geometry.go: `regionCover`)

`regionCover` first pairs the flat coordinate slice into points with the loop
`for len(coords) > 0 { lat, lng := coords[0], coords[1]; ...; coords = coords[2:] }`.
`pairCoords` mirrors that loop, polymorphic in the scalar type: `none` models
the out-of-range panic on `coords[1]` that an odd-length slice eventually
triggers.  The remaining steps build a single loop from the points, a polygon
from that one loop, and hand the polygon to the external s2 coverer, which is
a parameter of the embedding (its code lives in `github.com/golang/geo/s2`,
outside this repository).  Spatial cells are modelled as paths in a quadtree
(`List (Fin 4)`, the level being the path length). -/

def pairCoords {α : Type} : List α → Option (List (α × α))
  | [] => some []
  | [_] => none
  | a :: b :: rest => (pairCoords rest).map (fun ps => (a, b) :: ps)

/-- A spatial cell: a path of child choices in the hierarchical decomposition. -/
abbrev Cell := List (Fin 4)

/-- `regionCover` with the external s2 covering step as a parameter: pair the
coordinates, build the singleton loop list `[l1]`, cover.  The function has no
error result — the only non-value outcome is the pairing panic. -/
def regionCover {α : Type} (coverer : List (List (α × α)) → List Cell)
    (coords : List α) : Option (List Cell) :=
  (pairCoords coords).map (fun points => coverer [points])

theorem pairCoords_nil {α : Type} : pairCoords ([] : List α) = some [] := rfl

/-- Even-length input: the pairing loop is total and point `i` is built from
the scalars at indices `2*i` and `2*i + 1`, in input order. -/
theorem pairCoords_even {α : Type} (d : α) :
    ∀ (l : List α) (n : Nat), l.length = 2 * n →
      ∃ ps, pairCoords l = some ps ∧ ps.length = n ∧
        ∀ i, i < n → ps.getD i (d, d) = (l.getD (2 * i) d, l.getD (2 * i + 1) d) := by
  intro l
  induction l using pairCoords.induct with
  | case1 =>
    intro n hn
    simp only [List.length_nil] at hn
    have hn0 : n = 0 := by omega
    subst hn0
    exact ⟨[], rfl, rfl, fun i hi => absurd hi (by omega)⟩
  | case2 x =>
    intro n hn
    simp only [List.length_singleton] at hn
    omega
  | case3 a b rest ih =>
    intro n hn
    obtain ⟨n', hn'⟩ : ∃ n', n = n' + 1 := by
      cases n with
      | zero => simp at hn
      | succ n' => exact ⟨n', rfl⟩
    subst hn'
    have hrest : rest.length = 2 * n' := by
      simp at hn
      omega
    obtain ⟨ps, hps, hlen, hidx⟩ := ih n' hrest
    refine ⟨(a, b) :: ps, ?_, by simp [hlen], ?_⟩
    · simp [pairCoords, hps]
    · intro i hi
      cases i with
      | zero => simp
      | succ j =>
        have hj : j < n' := by omega
        have h2 : 2 * (j + 1) = 2 * j + 1 + 1 := by omega
        rw [h2]
        simpa using hidx j hj

/-- Odd-length input makes the pairing loop hit the out-of-range access. -/
theorem pairCoords_odd {α : Type} :
    ∀ l : List α, l.length % 2 = 1 → pairCoords l = none := by
  intro l
  induction l using pairCoords.induct with
  | case1 =>
    intro h
    simp at h
  | case2 x =>
    intro _
    rfl
  | case3 a b rest ih =>
    intro h
    have hrest : rest.length % 2 = 1 := by
      simp at h
      omega
    simp [pairCoords, ih hrest]

/-- C6: for an even-length coordinate sequence of length `2*n` the pairing
step of `regionCover` is total and yields exactly `n` points in input order,
point `i` taking its latitude from index `2*i` and its longitude from index
`2*i + 1`; an odd-length sequence instead drives the loop into an
out-of-range index access (a caller error). -/
theorem regionCover_pairing (α : Type) (d : α) (l : List α) :
    (∀ n, l.length = 2 * n →
      ∃ ps, pairCoords l = some ps ∧ ps.length = n ∧
        ∀ i, i < n → ps.getD i (d, d) = (l.getD (2 * i) d, l.getD (2 * i + 1) d)) ∧
    (l.length % 2 = 1 → pairCoords l = none) :=
  ⟨fun n hn => pairCoords_even d l n hn, pairCoords_odd l⟩

/-- Witness for C6 on the concrete sequence `[10, 20, 30, 40]`: two points
`(10, 20)` and `(30, 40)`, in order. -/
theorem regionCover_pairing_witness :
    pairCoords [10, 20, 30, 40] = some [(10, 20), (30, 40)] ∧
    pairCoords [10, 20, 30] = none := by
  have h := regionCover_pairing Nat 0 [10, 20, 30, 40]
  obtain ⟨ps, hps, hlen, hidx⟩ := h.1 2 (by decide)
  have h1 := hidx 0 (by decide)
  have h2 := hidx 1 (by decide)
  have hodd := (regionCover_pairing Nat 0 [10, 20, 30]).2 (by decide)
  refine ⟨?_, hodd⟩
  rw [hps]
  have : ps = [(10, 20), (30, 40)] := by
    match ps, hlen with
    | [p, q], _ =>
      simp at h1 h2
      rw [h1, h2]
  rw [this]

/-- Counterexample to C7 as stated: a 2-point (4-scalar) input, strictly fewer
than the 3 points needed for a simple polygon, still produces a cell cover
(`some`, here the one returned by the covering step) — `regionCover` has no
error result and performs no point-count validation. -/
theorem regionCover_degenerate_cex :
    regionCover (fun _ => ([[]] : List Cell)) ([0, 0, 1, 1] : List Int) = some [[]] ∧
    (regionCover (fun _ => ([[]] : List Cell)) ([0, 0, 1, 1] : List Int)).isSome = true := by
  constructor <;> rfl

theorem pairCoords_isSome_of_even {α : Type} :
    ∀ l : List α, l.length % 2 = 0 → (pairCoords l).isSome = true := by
  intro l
  induction l using pairCoords.induct with
  | case1 =>
    intro _
    rfl
  | case2 x =>
    intro h
    simp at h
  | case3 a b rest ih =>
    intro h
    have hrest : rest.length % 2 = 0 := by
      simp at h
      omega
    have h' := ih hrest
    cases hps : pairCoords rest with
    | none =>
      rw [hps] at h'
      simp at h'
    | some ps => simp [pairCoords, hps]

/-- C7 amended: `regionCover` performs no validation and cannot signal an
error; for every even-length coordinate sequence with fewer than 3 points it
still returns the cell cover computed from the degenerate polygon. -/
theorem regionCover_no_validation {α : Type} (coverer : List (List (α × α)) → List Cell)
    (coords : List α) (heven : coords.length % 2 = 0) (hfew : coords.length < 6) :
    (regionCover coverer coords).isSome = true := by
  have h := pairCoords_isSome_of_even coords heven
  cases hps : pairCoords coords with
  | none =>
    rw [hps] at h
    simp at h
  | some ps => simp [regionCover, hps]

/-- Witness for the amended C7: a concrete 2-point sequence over `Int`. -/
theorem regionCover_no_validation_witness :
    (regionCover (fun _ => ([] : List Cell)) ([5, 6, 7, 8] : List Int)).isSome = true :=
  regionCover_no_validation (fun _ => ([] : List Cell)) ([5, 6, 7, 8] : List Int)
    (by decide) (by decide)

/-! ## Spec-modelled covering algorithm (s2 `RegionCoverer.Covering`) -/

/-- The four children of a cell, one level finer. -/
def cellChildren (c : Cell) : List Cell :=
  [c ++ [0], c ++ [1], c ++ [2], c ++ [3]]

/-- Modelled from the spec: the covering algorithm itself lives in the
external `github.com/golang/geo/s2` library (`RegionCoverer.Covering`), not
in this repository's sources, so it is modelled from §4.1 of the spec: a
worklist starting from a coarse global cell recursively subdivides, refining
any cell that intersects the polygon boundary (the abstract predicate
`intersects`) down to `maxLevel`, and prunes to respect `maxCells`, keeping a
cell coarse whenever refining it would push the cover past the budget.
`fuel` is a preset bound on worklist steps, large enough for the budgeted
refinement; if it runs out the remaining worklist is emitted unrefined, which
only makes the cover coarser, never larger. -/
def coverAux (intersects : Cell → Bool) (maxLevel maxCells : Nat) :
    Nat → List Cell → List Cell → List Cell
  | 0, queue, acc => acc ++ queue
  | _ + 1, [], acc => acc
  | fuel + 1, c :: queue, acc =>
    if intersects c ∧ c.length < maxLevel ∧ acc.length + queue.length + 4 ≤ maxCells then
      coverAux intersects maxLevel maxCells fuel (cellChildren c ++ queue) acc
    else
      coverAux intersects maxLevel maxCells fuel queue (acc ++ [c])

/-- Modelled from the spec: the covering entry point, starting from the
single coarsest cell (level 0). -/
def specCovering (intersects : Cell → Bool) (maxLevel maxCells : Nat) : List Cell :=
  coverAux intersects maxLevel maxCells (4 * (maxCells + 1) * (maxLevel + 1) + 4) [[]] []

/-- `regionCover` composed with the spec-modelled coverer: pair the
coordinates, then cover the polygon they describe, the boundary test being
abstracted by `intersects` applied to the loop list. -/
def regionCoverSpec {α : Type} (intersects : List (List (α × α)) → Cell → Bool)
    (maxLevel maxCells : Nat) (coords : List α) : Option (List Cell) :=
  (pairCoords coords).map (fun points => specCovering (intersects [points]) maxLevel maxCells)

/-- The pruning guard of `coverAux` preserves the budget invariant: the cells
already emitted plus the cells still queued never exceed `maxCells`. -/
theorem coverAux_length_le (intersects : Cell → Bool) (maxLevel maxCells : Nat) :
    ∀ (fuel : Nat) (queue acc : List Cell),
      acc.length + queue.length ≤ maxCells →
      (coverAux intersects maxLevel maxCells fuel queue acc).length ≤ maxCells := by
  intro fuel
  induction fuel with
  | zero =>
    intro queue acc h
    simpa [coverAux] using h
  | succ fuel ih =>
    intro queue acc h
    cases queue with
    | nil =>
      simp only [coverAux]
      simpa using h
    | cons c rest =>
      simp only [coverAux]
      by_cases hc : intersects c ∧ c.length < maxLevel ∧ acc.length + rest.length + 4 ≤ maxCells
      · rw [if_pos hc]
        apply ih
        simp only [cellChildren, List.length_append, List.length_cons, List.length_nil]
        simp only [List.length_cons] at h
        omega
      · rw [if_neg hc]
        apply ih
        simp only [List.length_append, List.length_cons, List.length_nil] at h ⊢
        omega

/-- C8: for every coordinate sequence forming a valid polygon (even length,
at least 3 points) and every pair of budgets with `maxCells >= 1`, the cell
cover returned by the region coverer has at most `maxCells` cells. -/
theorem regionCover_maxCells_bound {α : Type}
    (intersects : List (List (α × α)) → Cell → Bool) (maxLevel maxCells : Nat)
    (coords : List α) (heven : coords.length % 2 = 0) (hpoly : 6 ≤ coords.length)
    (hcells : 1 ≤ maxCells) :
    ∃ cover, regionCoverSpec intersects maxLevel maxCells coords = some cover ∧
      cover.length ≤ maxCells := by
  have h := pairCoords_isSome_of_even coords heven
  cases hps : pairCoords coords with
  | none =>
    rw [hps] at h
    simp at h
  | some ps =>
    refine ⟨specCovering (intersects [ps]) maxLevel maxCells, by simp [regionCoverSpec, hps], ?_⟩
    apply coverAux_length_le
    simpa using hcells

/-- Witness for C8: a 3-point triangle with budgets `maxLevel = 1`,
`maxCells = 4` and an everywhere-intersecting boundary test. -/
theorem regionCover_maxCells_bound_witness :
    ∃ cover, regionCoverSpec (fun _ _ => true) 1 4 ([0, 0, 0, 1, 1, 0] : List Int) =
      some cover ∧ cover.length ≤ 4 :=
  regionCover_maxCells_bound (fun _ _ => true) 1 4 ([0, 0, 0, 1, 1, 0] : List Int)
    (by decide) (by decide) (by decide)

/-! ## Fan-out pool (`pool` / `worker`)

`pool` starts `len(links) + 1` workers (Go: `for i := 0; i <= numberOfJobs`),
sends each link on an unbuffered jobs channel and closes it, then reads
`len(links) + 1` results and concatenates their `Links` (ignoring any
`Error` field of the individual results).

Nondeterminism is made explicit: a `schedule` assigns job `i` (in channel
send order) to a worker index, so worker `w` consumes the subsequence
`jobsOf links schedule w` of the jobs in order; an `arrival` list gives the
order in which the orchestrator receives the worker results.

`worker` (part_001 lines 228-250) ranges over its jobs, enumerates the
objects under the job's bucket/prefix (modelled by `fetch`, which stands for
`strings.SplitAfter` + `getImagesFromBucket`; on failure the Go code retries
with `DefaultRetry().MaxRetries = 5` and records the wrapped error, leaving
`result` nil), and each iteration assigns `folderImages.Links = result` —
overwriting, not appending.  The single send on the results channel happens
after the jobs loop. -/

structure GoResult where
  links : List String
  error : Option String
deriving DecidableEq, Repr

/-- The object list a job contributes through `result`: the listed objects on
success, `nil` when even the retries failed. -/
def fetchLinks (fetch : String → Except String (List String)) (link : String) : List String :=
  match fetch link with
  | Except.ok ls => ls
  | Except.error _ => []

/-- One iteration of the worker's `for imgLink := range jobs` body. -/
def workerStep (fetch : String → Except String (List String)) (acc : GoResult)
    (job : String) : GoResult :=
  match fetch job with
  | Except.ok ls => { links := ls, error := acc.error }
  | Except.error e => { links := [], error := some (retryErrMsg 5 e) }

/-- The `folderImages` value a worker holds after consuming its jobs. -/
def worker (fetch : String → Except String (List String)) (jobs : List String) : GoResult :=
  jobs.foldl (workerStep fetch) { links := [], error := none }

/-- The sequence of sends a worker performs on the results channel: none
inside the jobs loop, exactly one after the jobs channel is exhausted. -/
def workerSends (fetch : String → Except String (List String)) (jobs : List String) :
    List GoResult :=
  [worker fetch jobs]

/-- The jobs consumed by worker `w`: the links whose position the schedule
assigns to `w`, in channel (send) order. -/
def jobsOf (links : List String) (schedule : List Nat) (w : Nat) : List String :=
  ((links.zip schedule).filter (fun p => p.2 == w)).map Prod.fst

/-- The orchestrator's concatenated `imageResult.Links`: one result per
worker, appended in arrival order (worker errors are ignored by `pool`). -/
def poolLinks (fetch : String → Except String (List String)) (links : List String)
    (schedule arrival : List Nat) : List String :=
  (arrival.map (fun w => (worker fetch (jobsOf links schedule w)).links)).flatten

theorem jobsOf_nil (schedule : List Nat) (w : Nat) : jobsOf [] schedule w = [] := rfl

theorem jobsOf_cons (l : String) (ls : List String) (w0 : Nat) (ss : List Nat) (w : Nat) :
    jobsOf (l :: ls) (w0 :: ss) w =
      if w0 = w then l :: jobsOf ls ss w else jobsOf ls ss w := by
  simp only [jobsOf, List.zip_cons_cons, List.filter_cons]
  by_cases h : w0 = w
  · simp [h]
  · simp [h]

theorem jobsOf_not_mem :
    ∀ (links : List String) (schedule : List Nat) (w : Nat),
      w ∉ schedule → jobsOf links schedule w = [] := by
  intro links
  induction links with
  | nil =>
    intro schedule w _
    rfl
  | cons l ls ih =>
    intro schedule w hw
    cases schedule with
    | nil => rfl
    | cons s ss =>
      have hs : s ≠ w := fun h => hw (h ▸ List.mem_cons_self _ _)
      have hss : w ∉ ss := fun h => hw (List.mem_cons_of_mem _ h)
      rw [jobsOf_cons, if_neg hs]
      exact ih ss w hss

theorem worker_nil (fetch : String → Except String (List String)) :
    worker fetch [] = { links := [], error := none } := rfl

theorem worker_links_last (fetch : String → Except String (List String)) :
    ∀ (jobs : List String) (acc : GoResult) (h : jobs ≠ []),
      (jobs.foldl (workerStep fetch) acc).links = fetchLinks fetch (jobs.getLast h) := by
  intro jobs
  induction jobs with
  | nil =>
    intro acc h
    exact absurd rfl h
  | cons x rest ih =>
    intro acc h
    cases rest with
    | nil =>
      simp only [List.foldl_cons, List.foldl_nil, List.getLast_singleton]
      cases hx : fetch x <;> simp [workerStep, fetchLinks, hx]
    | cons y rest' =>
      rw [List.foldl_cons, List.getLast_cons (by simp)]
      exact ih (workerStep fetch acc x) (by simp)

theorem worker_singleton_links (fetch : String → Except String (List String)) (l : String) :
    (worker fetch [l]).links = fetchLinks fetch l :=
  worker_links_last fetch [l] { links := [], error := none } (by simp)

/-- Permuting the outer list permutes the flattened list. -/
theorem perm_flatten {α : Type} {l₁ l₂ : List (List α)} (h : l₁.Perm l₂) :
    l₁.flatten.Perm l₂.flatten := by
  induction h with
  | nil => exact List.Perm.refl _
  | cons x h ih => simpa using ih.append_left x
  | swap x y l =>
    simp only [List.flatten_cons]
    rw [← List.append_assoc, ← List.append_assoc]
    exact List.perm_append_comm.append_right _
  | trans h1 h2 ih1 ih2 => exact ih1.trans ih2

/-- Replacing the value of one occurrence `t` of a duplicate-free index list
by `b ++ f t` inserts `b` into the flattened image, up to permutation. -/
theorem flatten_update_perm {β : Type} :
    ∀ (ws : List Nat) (f g : Nat → List β) (t : Nat) (b : List β),
      ws.Nodup → t ∈ ws → g t = b ++ f t → (∀ w ∈ ws, w ≠ t → g w = f w) →
      ((ws.map g).flatten).Perm (b ++ (ws.map f).flatten) := by
  intro ws
  induction ws with
  | nil =>
    intro f g t b _ ht _ _
    simp at ht
  | cons a ws ih =>
    intro f g t b hnd ht hgt hgw
    have hand : a ∉ ws ∧ ws.Nodup := List.nodup_cons.mp hnd
    rcases List.mem_cons.mp ht with hta | htw
    · subst hta
      have hmap : ws.map g = ws.map f := by
        apply List.map_congr_left
        intro w hw
        exact hgw w (List.mem_cons_of_mem _ hw) (fun hwt => hand.1 (hwt ▸ hw))
      simp only [List.map_cons, List.flatten_cons, hmap, hgt, List.append_assoc]
      exact List.Perm.refl _
    · have hat : a ≠ t := fun h => hand.1 (h ▸ htw)
      have hga : g a = f a := hgw a (List.mem_cons_self _ _) hat
      have hrec := ih f g t b hand.2 htw hgt
        (fun w hw hwt => hgw w (List.mem_cons_of_mem _ hw) hwt)
      simp only [List.map_cons, List.flatten_cons, hga]
      refine (hrec.append_left (f a)).trans ?_
      rw [← List.append_assoc, ← List.append_assoc]
      exact List.perm_append_comm.append_right _

/-- With a duplicate-free schedule (each worker consumes at most one job),
the flattened links over all started workers are a permutation of the
per-link object lists, flattened in link order. -/
theorem pool_fiber_perm (fetch : String → Except String (List String)) :
    ∀ (links : List String) (schedule : List Nat) (W : Nat),
      schedule.length = links.length → schedule.Nodup → (∀ s ∈ schedule, s < W) →
      (((List.range W).map
          (fun w => (worker fetch (jobsOf links schedule w)).links)).flatten).Perm
        ((links.map (fetchLinks fetch)).flatten) := by
  intro links
  induction links with
  | nil =>
    intro schedule W hlen _ _
    have hz : ∀ w ∈ List.range W, (worker fetch (jobsOf [] schedule w)).links = [] := by
      intro w _
      rw [jobsOf_nil, worker_nil]
    have : ((List.range W).map (fun w => (worker fetch (jobsOf [] schedule w)).links)) =
        (List.range W).map (fun _ => ([] : List String)) :=
      List.map_congr_left hz
    rw [this]
    simp [List.flatten_eq_nil_iff]
  | cons l ls ih =>
    intro schedule W hlen hnd hbound
    cases schedule with
    | nil => simp at hlen
    | cons w0 ss =>
      have hand : w0 ∉ ss ∧ ss.Nodup := List.nodup_cons.mp hnd
      have hw0 : w0 ∈ List.range W :=
        List.mem_range.mpr (hbound w0 (List.mem_cons_self _ _))
      have hg : (fun w => (worker fetch (jobsOf (l :: ls) (w0 :: ss) w)).links) w0 =
          fetchLinks fetch l ++
            (fun w => (worker fetch (jobsOf ls ss w)).links) w0 := by
        simp only
        rw [jobsOf_cons, if_pos rfl, jobsOf_not_mem ls ss w0 hand.1, worker_singleton_links]
        simp [worker_nil]
      have hothers : ∀ w ∈ List.range W, w ≠ w0 →
          (fun w => (worker fetch (jobsOf (l :: ls) (w0 :: ss) w)).links) w =
            (fun w => (worker fetch (jobsOf ls ss w)).links) w := by
        intro w _ hw
        simp only
        rw [jobsOf_cons, if_neg (fun h => hw h.symm)]
      have hins := flatten_update_perm (List.range W)
        (fun w => (worker fetch (jobsOf ls ss w)).links)
        (fun w => (worker fetch (jobsOf (l :: ls) (w0 :: ss) w)).links)
        w0 (fetchLinks fetch l) (List.nodup_range W) hw0 hg hothers
      have hih := ih ss W (by simpa using hlen) hand.2
        (fun s hs => hbound s (List.mem_cons_of_mem _ hs))
      refine hins.trans ?_
      have hsplit : ((l :: ls).map (fetchLinks fetch)).flatten =
          fetchLinks fetch l ++ (ls.map (fetchLinks fetch)).flatten := by simp
      rw [hsplit]
      exact hih.append_left _

/-- C9: every pool worker sends exactly one `Result` on the results channel,
after the jobs channel is exhausted (the only send in `worker` is the one
following the `range jobs` loop); and when a worker consumes more than one
job, the `Result` it sends carries only the object links of the last job it
processed — `folderImages.Links = result` overwrites the links of every
earlier job, so they never reach the aggregator. -/
theorem worker_single_send_last_links (fetch : String → Except String (List String))
    (jobs : List String) :
    (workerSends fetch jobs).length = 1 ∧
    ∀ h : jobs ≠ [], (worker fetch jobs).links = fetchLinks fetch (jobs.getLast h) :=
  ⟨rfl, fun h => worker_links_last fetch jobs { links := [], error := none } h⟩

/-- A concrete enumeration: link "a" holds objects x, y and link "b" holds
object z; anything else fails. -/
def fetchDemo : String → Except String (List String) :=
  fun s =>
    if s = "a" then Except.ok ["x", "y"]
    else if s = "b" then Except.ok ["z"] else Except.error "missing"

/-- Witness for C9: a worker that consumed both jobs "a" and "b" sends one
result holding only ["z"], the links of its last job. -/
theorem worker_single_send_last_links_witness :
    (workerSends fetchDemo ["a", "b"]).length = 1 ∧
    (worker fetchDemo ["a", "b"]).links = ["z"] := by
  have h := worker_single_send_last_links fetchDemo ["a", "b"]
  refine ⟨h.1, ?_⟩
  have h2 := h.2 (by simp)
  rw [h2]
  rfl

/-- Counterexample to C3 as stated: both jobs scheduled onto worker 0 is a
possible scheduling of the pool (two jobs, three workers, all indices in
range, results read from all three workers), every enumeration succeeds, yet
the pool output is ["z"] — length 1 instead of the claimed 2 + 1 = 3: worker
0 overwrote the links of job "a" when it processed job "b". -/
theorem pool_scheduling_cex :
    [0, 0].length = (["a", "b"] : List String).length ∧
    (∀ s ∈ [0, 0], s < (["a", "b"] : List String).length + 1) ∧
    [0, 1, 2].Perm (List.range ((["a", "b"] : List String).length + 1)) ∧
    fetchDemo "a" = Except.ok ["x", "y"] ∧
    fetchDemo "b" = Except.ok ["z"] ∧
    poolLinks fetchDemo ["a", "b"] [0, 0] [0, 1, 2] = ["z"] ∧
    ((["a", "b"] : List String).map (fun j => (fetchLinks fetchDemo j).length)).sum = 3 ∧
    (poolLinks fetchDemo ["a", "b"] [0, 0] [0, 1, 2]).length ≠ 3 := by
  refine ⟨rfl, by decide, by decide, rfl, rfl, rfl, rfl, by decide⟩

/-- C3 amended: for every list of links whose enumerations all succeed, and
every scheduling in which no worker consumes more than one job (a
duplicate-free schedule — in particular the claimed multiset equality fails
without this restriction, see the counterexample), the pool's flattened
`Links`, as a multiset, equal the union of the per-link object lists for
every arrival order, and in particular the output length is the sum of the
per-link object-list lengths. -/
theorem pool_links_perm (fetch : String → Except String (List String))
    (links : List String) (schedule arrival : List Nat)
    (hlen : schedule.length = links.length) (hnd : schedule.Nodup)
    (hbound : ∀ s ∈ schedule, s < links.length + 1)
    (harr : arrival.Perm (List.range (links.length + 1)))
    (hok : ∀ j ∈ links, ∃ ls, fetch j = Except.ok ls) :
    (poolLinks fetch links schedule arrival).Perm
      ((links.map (fetchLinks fetch)).flatten) ∧
    (poolLinks fetch links schedule arrival).length =
      (links.map (fun j => (fetchLinks fetch j).length)).sum := by
  have h1 : (poolLinks fetch links schedule arrival).Perm
      (((List.range (links.length + 1)).map
        (fun w => (worker fetch (jobsOf links schedule w)).links)).flatten) :=
    perm_flatten (harr.map _)
  have h2 := pool_fiber_perm fetch links schedule (links.length + 1) hlen hnd hbound
  have hperm := h1.trans h2
  refine ⟨hperm, ?_⟩
  rw [hperm.length_eq, List.length_flatten, List.map_map]
  rfl

/-- Witness for the amended C3: jobs "a" and "b" on distinct workers, results
arriving in the order worker 2, worker 0, worker 1. -/
theorem pool_links_perm_witness :
    (poolLinks fetchDemo ["a", "b"] [0, 1] [2, 0, 1]).Perm
      (((["a", "b"] : List String).map (fetchLinks fetchDemo)).flatten) ∧
    (poolLinks fetchDemo ["a", "b"] [0, 1] [2, 0, 1]).length =
      ((["a", "b"] : List String).map (fun j => (fetchLinks fetchDemo j).length)).sum :=
  pool_links_perm fetchDemo ["a", "b"] [0, 1] [2, 0, 1] (by decide) (by decide)
    (by decide) (by decide)
    (by
      intro j hj
      rcases (by simpa using hj : j = "a" ∨ j = "b") with h | h
      · subst h
        exact ⟨["x", "y"], rfl⟩
      · subst h
        exact ⟨["z"], rfl⟩)

end SatService
